import Mathlib

/-!
# Verification of the rbx-forge process lifecycle and lockfile layer

This file gives a shallow embedding, in Lean, of the process-coordination core
of the `rbx-forge` CLI and proves the specified properties about it:

* `src/utils/kill-process-tree.ts` — recursive process-tree discovery
  (`buildProcessTree`, `getChildPids`) and leaf-to-root signalling
  (`killPids`, `killProcessTreeUnix`);
* `src/utils/lockfile.ts` — lockfile removal with bounded exponential-backoff
  retry (`cleanupLockfile`), and raw lockfile reading (`readLockfileRaw`);
* `src/utils/rojo-lock-manager.ts` — server-lock parsing with stale-lock
  self-healing (`readRojoLock`);
* `src/utils/process-manager.ts` — the memoized `cleanup()` entry point, the
  hook-running `performCleanup`, and `setupSignalHandlers`;
* the shared multi-owner lockfile (`addPidToLockfile`, `readLockfilePids`);
* the port prober (`findAvailablePort`).

Effectful boundaries (the OS process table, `process.kill`, the filesystem,
TCP binding) are modelled as explicit oracles passed to the embedded
functions, and stateful code is modelled by explicit state passing.  File
contents are represented by their list of newline-separated lines.  The
JavaScript string operations used by the source (`trim`, `split("\n")`,
`Number.parseInt(_, 10)`) are embedded as executable functions over character
lists so that every definition evaluates by kernel reduction.
-/

/-! ## JavaScript string primitives -/

/-- Both-ends whitespace trim of a character list (JS `String.prototype.trim`). -/
def jsTrimList (l : List Char) : List Char :=
  ((l.dropWhile Char.isWhitespace).reverse.dropWhile Char.isWhitespace).reverse

/-- JS `s.trim()`. -/
def jsTrim (s : String) : String := String.mk (jsTrimList s.data)

/-- Split a character list on a separator character, JS `split` semantics:
the result always has one more group than there are separators, so the empty
list splits to `[[]]`. -/
def splitCharList (c : Char) : List Char → List (List Char)
  | [] => [[]]
  | x :: xs =>
    match splitCharList c xs with
    | [] => [[]]
    | g :: gs => if x = c then [] :: g :: gs else (x :: g) :: gs

/-- JS `s.split("\n")`. -/
def jsSplitNewline (s : String) : List String :=
  (splitCharList '\n' s.data).map String.mk

/-- Numeric value of a radix-10 digit string. -/
def digitsToNat (ds : List Char) : Nat :=
  ds.foldl (fun n c => 10 * n + (c.toNat - (48 : Nat))) 0

/-- JS `Number.parseInt(s, 10)`: skip surrounding whitespace, read an optional
sign, then the maximal leading digit run; `none` models `NaN` (no digits). -/
def jsParseInt (s : String) : Option Int :=
  let t := jsTrimList s.data
  let (sign, rest) :=
    match t with
    | c :: cs =>
      if c = '-' then ((-1 : Int), cs)
      else if c = '+' then ((1 : Int), cs)
      else ((1 : Int), t)
    | [] => ((1 : Int), t)
  let ds := rest.takeWhile Char.isDigit
  if ds.isEmpty then none else some (sign * (digitsToNat ds : Int))

/-! ## Process trees

`kill-process-tree.ts` discovers the tree shape by repeated OS queries.  For
specification we describe an actual process tree as an inductive value: a root
PID together with the subtrees of its children.  The OS child-query is an
oracle `Nat → List Nat`; `treeAgrees` states that the oracle answers according
to a given tree. -/

inductive ProcTree where
  | node (pid : Nat) (children : List ProcTree)
deriving Repr

/-- Root PID of a process tree. -/
def rootPid : ProcTree → Nat
  | .node p _ => p

/-- The root PIDs of a forest, in order. -/
def forestRoots (f : List ProcTree) : List Nat := f.map rootPid

mutual

/-- Number of nodes of a tree. -/
def treeSize : ProcTree → Nat
  | .node _ cs => 1 + forestSize cs

/-- Number of nodes of a forest. -/
def forestSize : List ProcTree → Nat
  | [] => 0
  | t :: ts => treeSize t + forestSize ts

end

mutual

/-- All PIDs of a tree (root first). -/
def treePids : ProcTree → List Nat
  | .node p cs => p :: forestPids cs

/-- All PIDs of a forest. -/
def forestPids : List ProcTree → List Nat
  | [] => []
  | t :: ts => treePids t ++ forestPids ts

end

mutual

/-- Postorder listing of the PIDs of a tree: all descendants first, the root
last. -/
def postorder : ProcTree → List Nat
  | .node p cs => postorderF cs ++ [p]

/-- Postorder listing of the PIDs of a forest. -/
def postorderF : List ProcTree → List Nat
  | [] => []
  | t :: ts => postorder t ++ postorderF ts

end

mutual

/-- The child-query oracle `q` answers according to tree `t`: at every node of
`t` it returns exactly the PIDs of that node's children. -/
def treeAgrees (q : Nat → List Nat) : ProcTree → Bool
  | .node p cs => (q p == forestRoots cs) && forestAgrees q cs

/-- `treeAgrees` over every tree of a forest. -/
def forestAgrees (q : Nat → List Nat) : List ProcTree → Bool
  | [] => true
  | t :: ts => treeAgrees q t && forestAgrees q ts

end

/-- `s` occurs as a subtree of `t` (reflexively). -/
inductive SubtreeOf : ProcTree → ProcTree → Prop
  | refl (t : ProcTree) : SubtreeOf t t
  | step {s c : ProcTree} {p : Nat} {cs : List ProcTree} :
      c ∈ cs → SubtreeOf s c → SubtreeOf s (ProcTree.node p cs)

/-- `a` occurs strictly before `b` in the list `l`. -/
def Before {α : Type} (a b : α) (l : List α) : Prop :=
  ∃ l1 l2 l3, l = l1 ++ a :: l2 ++ b :: l3

/-! ## kill-process-tree.ts -/

/-- `getChildPids` (kill-process-tree.ts): run `pgrep -P pid` / `ps -o pid
--no-headers --ppid pid` and parse its stdout.  The `execa` call is the oracle
`raw`; `.error` is a failed command (no children, or the process has exited),
which the source catches and turns into `[]`.  Each stdout line is parsed with
`Number.parseInt(line.trim(), 10)`; a line whose parse is `NaN` (impossible
for `ps`/`pgrep` output, which is one decimal PID per line) is dropped here
rather than kept as a `NaN` entry. -/
def getChildPids (raw : Nat → Except Unit String) (pid : Nat) : List Nat :=
  match raw pid with
  | .error _ => []
  | .ok stdout =>
    let output := jsTrim stdout
    if output.length = 0 then []
    else (jsSplitNewline output).filterMap fun line =>
      (jsParseInt (jsTrim line)).bind fun i =>
        if 0 ≤ i then some i.toNat else none

/-- The BFS loop of `buildProcessTree`: dequeue a PID, query its children,
record them in the tree map (`tree[currentPid] = children`, then
`tree[childPid] = []` for each child, in source order), and enqueue the
children.  The source's `while` loop can run forever on a cyclic child oracle,
so the embedding carries fuel; `none` is fuel exhaustion. -/
def buildTreeLoop (q : Nat → List Nat) :
    Nat → List Nat → (Nat → List Nat) → Option (Nat → List Nat)
  | 0, _, _ => none
  | _ + 1, [], tm => some tm
  | fuel + 1, currentPid :: rest, tm =>
    let children := q currentPid
    let tm1 := Function.update tm currentPid children
    let tm2 := children.foldl (fun m c => Function.update m c ([] : List Nat)) tm1
    buildTreeLoop q fuel (rest ++ children) tm2

/-- The `collectPids` recursion of `buildProcessTree`, flattening the tree map
into a children-before-parents list: skip visited PIDs, mark the PID visited,
recurse into `tree[pid] ?? []`, then append the PID itself.  Generalized to a
worklist of PIDs; state is `(visited, allPids)`. -/
def collectMany (tm : Nat → List Nat) :
    Nat → List Nat → List Nat → List Nat → Option (List Nat × List Nat)
  | _, visited, acc, [] => some (visited, acc)
  | fuel, visited, acc, pid :: rest =>
    if pid ∈ visited then collectMany tm fuel visited acc rest
    else
      match fuel with
      | 0 => none
      | f + 1 =>
        match collectMany tm f (pid :: visited) acc (tm pid) with
        | none => none
        | some (v1, a1) => collectMany tm (f + 1) v1 (a1 ++ [pid]) rest
termination_by fuel _ _ pids => (fuel, pids.length)

/-- `buildProcessTree` (kill-process-tree.ts): BFS discovery starting from the
queue `[parentPid]` and the tree map `{ [parentPid]: [] }` (missing keys read
as `[]`, so the initial map is constantly `[]`), then `collectPids(parentPid)`
with empty visited set and output list. -/
def buildProcessTree (q : Nat → List Nat) (fuel : Nat) (parentPid : Nat) :
    Option (List Nat) :=
  match buildTreeLoop q fuel [parentPid] (fun _ => []) with
  | none => none
  | some tm =>
    match collectMany tm fuel [] [] [parentPid] with
    | none => none
    | some (_, allPids) => some allPids

/-- Outcome of one `process.kill(pid, signal)` call: delivered, `ESRCH` (no
such process), or another error. -/
inductive KillOutcome where
  | ok
  | esrch
  | err (msg : String)
deriving Repr, DecidableEq

/-- `true` when signalling `p` would be delivered (the process exists). -/
def aliveB (outcome : Nat → KillOutcome) (p : Nat) : Bool :=
  match outcome p with
  | .ok => true
  | _ => false

/-- `killPids` (kill-process-tree.ts): signal each PID in order; an `ESRCH`
failure (process already dead) is skipped with `continue`, any other error is
rethrown, aborting the loop.  Returns the ordered trace of delivered
`(pid, signal)` sends. -/
def killPids (outcome : Nat → KillOutcome) (pids : List Nat) (signal : String) :
    Except String (List (Nat × String)) :=
  match pids with
  | [] => .ok []
  | p :: rest =>
    match outcome p with
    | .ok =>
      match killPids outcome rest signal with
      | .ok trace => .ok ((p, signal) :: trace)
      | .error e => .error e
    | .esrch => killPids outcome rest signal
    | .err m => .error m

/-- `killProcessTreeUnix` (kill-process-tree.ts): build the flattened process
tree, then signal every collected PID.  `none` is fuel exhaustion of the
discovery walk (the source would loop forever). -/
def killProcessTreeUnix (raw : Nat → Except Unit String)
    (outcome : Nat → KillOutcome) (fuel : Nat) (pid : Nat) (signal : String) :
    Option (Except String (List (Nat × String))) :=
  match buildProcessTree (getChildPids raw) fuel pid with
  | none => none
  | some pids => some (killPids outcome pids signal)

/-! ## Basic facts about the tree measures and listings -/

@[simp]
lemma forestSize_nil : forestSize [] = 0 := by
  simp [forestSize]

@[simp]
lemma forestSize_cons (t : ProcTree) (ts : List ProcTree) :
    forestSize (t :: ts) = treeSize t + forestSize ts := by
  simp [forestSize]

@[simp]
lemma treeSize_node (p : Nat) (cs : List ProcTree) :
    treeSize (ProcTree.node p cs) = 1 + forestSize cs := by
  simp [treeSize]

lemma treeSize_pos (t : ProcTree) : 1 ≤ treeSize t := by
  cases t with
  | node p cs => simp

lemma forestSize_append (a b : List ProcTree) :
    forestSize (a ++ b) = forestSize a + forestSize b := by
  induction a with
  | nil => simp
  | cons t ts ih => simp [ih]; omega

@[simp]
lemma forestPids_nil : forestPids [] = [] := by
  simp [forestPids]

@[simp]
lemma forestPids_cons (t : ProcTree) (ts : List ProcTree) :
    forestPids (t :: ts) = treePids t ++ forestPids ts := by
  simp [forestPids]

@[simp]
lemma treePids_node (p : Nat) (cs : List ProcTree) :
    treePids (ProcTree.node p cs) = p :: forestPids cs := by
  simp [treePids]

lemma forestPids_append (a b : List ProcTree) :
    forestPids (a ++ b) = forestPids a ++ forestPids b := by
  induction a with
  | nil => simp
  | cons t ts ih => simp [ih]

@[simp]
lemma postorderF_nil : postorderF [] = [] := by
  simp [postorderF]

@[simp]
lemma postorderF_cons (t : ProcTree) (ts : List ProcTree) :
    postorderF (t :: ts) = postorder t ++ postorderF ts := by
  simp [postorderF]

@[simp]
lemma postorder_node (p : Nat) (cs : List ProcTree) :
    postorder (ProcTree.node p cs) = postorderF cs ++ [p] := by
  simp [postorder]

@[simp]
lemma forestRoots_nil : forestRoots [] = [] := rfl

@[simp]
lemma forestRoots_cons (t : ProcTree) (ts : List ProcTree) :
    forestRoots (t :: ts) = rootPid t :: forestRoots ts := rfl

lemma forestRoots_append (a b : List ProcTree) :
    forestRoots (a ++ b) = forestRoots a ++ forestRoots b := by
  simp [forestRoots]

@[simp]
lemma rootPid_node (p : Nat) (cs : List ProcTree) :
    rootPid (ProcTree.node p cs) = p := rfl

lemma rootPid_mem_treePids (t : ProcTree) : rootPid t ∈ treePids t := by
  cases t with
  | node p cs => simp

lemma forestRoots_subset_forestPids {f : List ProcTree} {x : Nat}
    (hx : x ∈ forestRoots f) : x ∈ forestPids f := by
  induction f with
  | nil => simp at hx
  | cons t ts ih =>
    simp only [forestRoots_cons, List.mem_cons] at hx
    rcases hx with h | h
    · subst h
      simp [rootPid_mem_treePids]
    · simp [ih h]

lemma treeAgrees_node {q : Nat → List Nat} {p : Nat} {cs : List ProcTree} :
    treeAgrees q (ProcTree.node p cs) = true ↔
      q p = forestRoots cs ∧ forestAgrees q cs = true := by
  simp [treeAgrees]

lemma forestAgrees_cons {q : Nat → List Nat} {t : ProcTree} {ts : List ProcTree} :
    forestAgrees q (t :: ts) = true ↔
      treeAgrees q t = true ∧ forestAgrees q ts = true := by
  simp [forestAgrees]

lemma forestAgrees_append {q : Nat → List Nat} {a b : List ProcTree} :
    forestAgrees q (a ++ b) = true ↔
      forestAgrees q a = true ∧ forestAgrees q b = true := by
  induction a with
  | nil => simp [forestAgrees]
  | cons t ts ih => simp [forestAgrees_cons, ih, and_assoc]

lemma postorderF_perm_forestPids :
    ∀ (n : Nat) (f : List ProcTree), forestSize f ≤ n →
      List.Perm (postorderF f) (forestPids f) := by
  intro n
  induction n with
  | zero =>
    intro f hf
    cases f with
    | nil => simp
    | cons t ts =>
      exfalso
      have := treeSize_pos t
      simp at hf
      omega
  | succ m ih =>
    intro f hf
    cases f with
    | nil => simp
    | cons t ts =>
      cases t with
      | node p cs =>
        simp only [forestSize_cons, treeSize_node] at hf
        have hcs : List.Perm (postorderF cs) (forestPids cs) := ih cs (by omega)
        have hts : List.Perm (postorderF ts) (forestPids ts) := ih ts (by omega)
        simp only [postorderF_cons, postorder_node, forestPids_cons, treePids_node]
        have h1 : List.Perm ((postorderF cs ++ [p]) ++ postorderF ts)
            (([p] ++ postorderF cs) ++ postorderF ts) :=
          (List.perm_append_comm).append_right _
        have h2 : List.Perm (p :: (postorderF cs ++ postorderF ts))
            (p :: (forestPids cs ++ forestPids ts)) :=
          (hcs.append hts).cons p
        refine h1.trans ?_
        simpa using h2

lemma postorder_perm_treePids (t : ProcTree) :
    List.Perm (postorder t) (treePids t) := by
  cases t with
  | node p cs =>
    have h := postorderF_perm_forestPids (forestSize cs) cs (le_refl _)
    simp only [postorder_node, treePids_node]
    have h1 : List.Perm (postorderF cs ++ [p]) ([p] ++ postorderF cs) :=
      List.perm_append_comm
    refine h1.trans ?_
    simpa using h.cons p

lemma mem_postorder_iff {t : ProcTree} {x : Nat} :
    x ∈ postorder t ↔ x ∈ treePids t :=
  (postorder_perm_treePids t).mem_iff

lemma postorder_getLast (t : ProcTree) :
    (postorder t).getLast? = some (rootPid t) := by
  cases t with
  | node p cs => simp

/-! ## Correctness of the BFS discovery walk -/

lemma foldl_update_nil_apply (cs : List Nat) (m : Nat → List Nat) (x : Nat) :
    (cs.foldl (fun m c => Function.update m c ([] : List Nat)) m) x =
      if x ∈ cs then [] else m x := by
  induction cs generalizing m with
  | nil => simp
  | cons c cs ih =>
    simp only [List.foldl_cons, ih, List.mem_cons]
    by_cases hx : x ∈ cs
    · simp [hx]
    · by_cases hcx : x = c
      · simp [hx, hcx, Function.update_apply]
      · simp [hx, hcx, Function.update_apply]

/-- After the BFS loop finishes on the roots of a forest whose PIDs are
distinct and about which the child oracle agrees, the tree map answers `q` on
every PID of the forest and is untouched elsewhere. -/
lemma buildTreeLoop_forest (q : Nat → List Nat) :
    ∀ (n : Nat) (f : List ProcTree) (tm : Nat → List Nat) (fuel : Nat),
      forestSize f ≤ n →
      forestSize f + 1 ≤ fuel →
      forestAgrees q f = true →
      (forestPids f).Nodup →
      ∃ tm', buildTreeLoop q fuel (forestRoots f) tm = some tm' ∧
        ∀ x, tm' x = if x ∈ forestPids f then q x else tm x := by
  intro n
  induction n with
  | zero =>
    intro f tm fuel hn hfuel _ _
    cases f with
    | nil =>
      obtain ⟨f1, rfl⟩ : ∃ f1, fuel = f1 + 1 := ⟨fuel - 1, by omega⟩
      exact ⟨tm, rfl, by simp⟩
    | cons t ts =>
      exfalso
      have := treeSize_pos t
      simp at hn
      omega
  | succ m ih =>
    intro f tm fuel hn hfuel hagree hnodup
    cases f with
    | nil =>
      obtain ⟨f1, rfl⟩ : ∃ f1, fuel = f1 + 1 := ⟨fuel - 1, by omega⟩
      exact ⟨tm, rfl, by simp⟩
    | cons t ts =>
      cases t with
      | node p cs =>
        rw [forestAgrees_cons, treeAgrees_node] at hagree
        obtain ⟨⟨hqp, hacs⟩, hats⟩ := hagree
        simp only [forestSize_cons, treeSize_node] at hn hfuel
        obtain ⟨fuel1, rfl⟩ : ∃ f1, fuel = f1 + 1 := ⟨fuel - 1, by omega⟩
        simp only [forestPids_cons, treePids_node, List.cons_append,
          List.nodup_cons, List.mem_append] at hnodup
        obtain ⟨hpnot, hnd⟩ := hnodup
        have hndts : (forestPids (ts ++ cs)).Nodup := by
          rw [forestPids_append]
          exact (List.perm_append_comm.nodup_iff).mp (by simpa using hnd)
        have step :
            buildTreeLoop q (fuel1 + 1) (forestRoots (ProcTree.node p cs :: ts)) tm =
              buildTreeLoop q fuel1 (forestRoots (ts ++ cs))
                ((q p).foldl (fun m c => Function.update m c ([] : List Nat))
                  (Function.update tm p (q p))) := by
          simp only [forestRoots_cons, rootPid_node, buildTreeLoop,
            forestRoots_append, hqp, forestRoots, List.map_append]
        obtain ⟨tm2, htm2, hprop⟩ :=
          ih (ts ++ cs)
            ((q p).foldl (fun m c => Function.update m c ([] : List Nat))
              (Function.update tm p (q p)))
            fuel1
            (by rw [forestSize_append]; omega)
            (by rw [forestSize_append]; omega)
            (forestAgrees_append.mpr ⟨hats, hacs⟩)
            hndts
        refine ⟨tm2, by rw [step, htm2], ?_⟩
        intro x
        have hx2 := hprop x
        rw [foldl_update_nil_apply] at hx2
        have hmemiff : x ∈ forestPids (ts ++ cs) ↔
            x ∈ forestPids ts ∨ x ∈ forestPids cs := by
          rw [forestPids_append, List.mem_append]
        have hsub : x ∈ q p → x ∈ forestPids cs := by
          rw [hqp]
          exact fun hc => forestRoots_subset_forestPids hc
        simp only [forestPids_cons, treePids_node, List.cons_append,
          List.mem_cons, List.mem_append]
        by_cases hmem : x ∈ forestPids (ts ++ cs)
        · rw [if_pos]
          · simpa [hmem] using hx2
          · rcases hmemiff.mp hmem with h | h
            · exact Or.inr (Or.inr h)
            · exact Or.inr (Or.inl h)
        · have hxcs : x ∉ forestPids cs := fun hc =>
            hmem (hmemiff.mpr (Or.inr hc))
          have hxts : x ∉ forestPids ts := fun hc =>
            hmem (hmemiff.mpr (Or.inl hc))
          have hnq : x ∉ q p := fun hc => hxcs (hsub hc)
          rw [if_neg hmem, if_neg hnq, Function.update_apply] at hx2
          by_cases hxp : x = p
          · rw [if_pos (Or.inl hxp)]
            rw [if_pos hxp] at hx2
            rw [hx2, hxp]
          · rw [if_neg hxp] at hx2
            rw [if_neg ?_]
            · exact hx2
            · intro hc
              rcases hc with h | h | h
              · exact hxp h
              · exact hxcs h
              · exact hxts h

/-! ## Correctness of the postorder collection -/

lemma collectMany_nil (tm : Nat → List Nat) (fuel : Nat) (visited acc : List Nat) :
    collectMany tm fuel visited acc [] = some (visited, acc) := by
  cases fuel <;> simp [collectMany]

lemma collectMany_cons_notmem (tm : Nat → List Nat) (fuel : Nat)
    (visited acc rest : List Nat) (pid : Nat) (h : pid ∉ visited) :
    collectMany tm (fuel + 1) visited acc (pid :: rest) =
      match collectMany tm fuel (pid :: visited) acc (tm pid) with
      | none => none
      | some (v1, a1) => collectMany tm (fuel + 1) v1 (a1 ++ [pid]) rest := by
  rw [collectMany]
  simp [h]

/-- Running the `collectPids` worklist on the roots of a forest, over a tree
map that answers `q` on the forest's PIDs, appends exactly the postorder
listing of the forest to the output and adds exactly the forest's PIDs to the
visited set. -/
lemma collectMany_forest (q tmArg : Nat → List Nat) :
    ∀ (n : Nat) (f : List ProcTree) (visited acc : List Nat) (fuel : Nat),
      forestSize f ≤ n →
      forestSize f + 1 ≤ fuel →
      forestAgrees q f = true →
      (∀ x, x ∈ forestPids f → tmArg x = q x) →
      (forestPids f).Nodup →
      (∀ x, x ∈ forestPids f → x ∉ visited) →
      ∃ v2, collectMany tmArg fuel visited acc (forestRoots f) =
          some (v2, acc ++ postorderF f) ∧
        ∀ x, x ∈ v2 ↔ x ∈ forestPids f ∨ x ∈ visited := by
  intro n
  induction n with
  | zero =>
    intro f visited acc fuel hn _ _ _ _ _
    cases f with
    | nil =>
      refine ⟨visited, ?_, by simp⟩
      simp [collectMany_nil]
    | cons t ts =>
      exfalso
      have := treeSize_pos t
      simp at hn
      omega
  | succ m ih =>
    intro f visited acc fuel hn hfuel hagree htm hnodup hvis
    cases f with
    | nil =>
      refine ⟨visited, ?_, by simp⟩
      simp [collectMany_nil]
    | cons t ts =>
      cases t with
      | node p cs =>
        rw [forestAgrees_cons, treeAgrees_node] at hagree
        obtain ⟨⟨hqp, hacs⟩, hats⟩ := hagree
        simp only [forestSize_cons, treeSize_node] at hn hfuel
        simp only [forestPids_cons, treePids_node, List.cons_append,
          List.mem_cons, List.mem_append] at hnodup hvis htm
        rw [List.nodup_cons] at hnodup
        obtain ⟨hpnot, hnd⟩ := hnodup
        rw [List.mem_append] at hpnot
        rw [List.nodup_append] at hnd
        obtain ⟨hndcs, hndts, hdisj⟩ := hnd
        obtain ⟨fuel1, rfl⟩ : ∃ f1, fuel = f1 + 1 := ⟨fuel - 1, by omega⟩
        have hpvis : p ∉ visited := hvis p (Or.inl rfl)
        have htmp : tmArg p = forestRoots cs := by
          rw [htm p (Or.inl rfl), hqp]
        obtain ⟨v1, hcall1, hv1⟩ :=
          ih cs (p :: visited) acc fuel1
            (by omega) (by omega) hacs
            (fun x hx => htm x (Or.inr (Or.inl hx)))
            hndcs
            (fun x hx => by
              rw [List.mem_cons]
              push_neg
              exact ⟨fun he => hpnot (Or.inl (he ▸ hx)),
                hvis x (Or.inr (Or.inl hx))⟩)
        obtain ⟨v2, hcall2, hv2⟩ :=
          ih ts v1 ((acc ++ postorderF cs) ++ [p]) (fuel1 + 1)
            (by omega) (by omega) hats
            (fun x hx => htm x (Or.inr (Or.inr hx)))
            hndts
            (fun x hx => by
              rw [hv1 x, List.mem_cons]
              push_neg
              refine ⟨fun hc => (hdisj hc hx).elim, ?_,
                hvis x (Or.inr (Or.inr hx))⟩
              intro he
              exact hpnot (Or.inr (he ▸ hx)))
        refine ⟨v2, ?_, ?_⟩
        · rw [forestRoots_cons, rootPid_node,
            collectMany_cons_notmem _ _ _ _ _ _ hpvis, htmp, hcall1]
          simp only [hcall2]
          simp [postorderF_cons, postorder_node]
        · intro x
          rw [hv2 x, hv1 x]
          simp only [forestPids_cons, treePids_node, List.cons_append,
            List.mem_cons, List.mem_append]
          tauto

/-- `buildProcessTree` on the root of a process tree about which the child
oracle agrees returns exactly the postorder listing of the tree:
children-before-parents, root last. -/
lemma buildProcessTree_eq_postorder (q : Nat → List Nat) (t : ProcTree)
    (fuel : Nat) (hagree : treeAgrees q t = true)
    (hnodup : (treePids t).Nodup) (hfuel : treeSize t + 1 ≤ fuel) :
    buildProcessTree q fuel (rootPid t) = some (postorder t) := by
  have hfa : forestAgrees q [t] = true :=
    forestAgrees_cons.mpr ⟨hagree, rfl⟩
  have hroots : forestRoots [t] = [rootPid t] := by simp [forestRoots]
  have hsize : forestSize [t] = treeSize t := by simp
  have hpids : forestPids [t] = treePids t := by simp
  obtain ⟨tm, htm, hprop⟩ :=
    buildTreeLoop_forest q (forestSize [t]) [t] (fun _ => []) fuel
      (le_refl _) (by omega) hfa (by rw [hpids]; exact hnodup)
  obtain ⟨v2, hcall, _⟩ :=
    collectMany_forest q tm (forestSize [t]) [t] [] [] fuel
      (le_refl _) (by omega) hfa
      (fun x hx => by rw [hprop x, if_pos hx])
      (by rw [hpids]; exact hnodup)
      (by simp)
  rw [hroots] at htm hcall
  have hpost : postorderF [t] = postorder t := by simp
  rw [hpost] at hcall
  simp only [buildProcessTree, htm, hcall, List.nil_append]

/-! ## The children-before-parents ordering -/

lemma before_append {α : Type} (a b : α) {l : List α} (h : Before a b l)
    (pre suf : List α) : Before a b (pre ++ l ++ suf) := by
  obtain ⟨l1, l2, l3, rfl⟩ := h
  exact ⟨pre ++ l1, l2, l3 ++ suf, by simp⟩

lemma before_filter {α : Type} {a b : α} {l : List α} (p : α → Bool)
    (h : Before a b l) (ha : p a = true) (hb : p b = true) :
    Before a b (l.filter p) := by
  obtain ⟨l1, l2, l3, rfl⟩ := h
  refine ⟨l1.filter p, l2.filter p, l3.filter p, ?_⟩
  simp [List.filter_append, List.filter_cons, ha, hb]

lemma before_map {α β : Type} {a b : α} {l : List α} (f : α → β)
    (h : Before a b l) : Before (f a) (f b) (l.map f) := by
  obtain ⟨l1, l2, l3, rfl⟩ := h
  exact ⟨l1.map f, l2.map f, l3.map f, by simp⟩

lemma postorderF_split {c : ProcTree} {cs : List ProcTree} (h : c ∈ cs) :
    ∃ pre suf, postorderF cs = pre ++ postorder c ++ suf := by
  induction cs with
  | nil => simp at h
  | cons d ds ih =>
    rcases List.mem_cons.mp h with rfl | h2
    · exact ⟨[], postorderF ds, by simp⟩
    · obtain ⟨pre, suf, heq⟩ := ih h2
      exact ⟨postorder d ++ pre, suf, by simp [heq]⟩

lemma rootPid_mem_postorder (t : ProcTree) : rootPid t ∈ postorder t :=
  mem_postorder_iff.mpr (rootPid_mem_treePids t)

lemma child_before_parent_self {p : Nat} {cs : List ProcTree} {c : ProcTree}
    (hc : c ∈ cs) : Before (rootPid c) p (postorder (ProcTree.node p cs)) := by
  obtain ⟨pre, suf, heq⟩ := postorderF_split hc
  obtain ⟨s1, s2, hsplit⟩ := List.append_of_mem (rootPid_mem_postorder c)
  refine ⟨pre ++ s1, s2 ++ suf, [], ?_⟩
  simp [postorder_node, heq, hsplit]

/-- In the postorder listing of `t`, the root of every child subtree occurs
strictly before its parent. -/
lemma subtree_child_before {t : ProcTree} {p : Nat} {cs : List ProcTree}
    (hsub : SubtreeOf (ProcTree.node p cs) t) {c : ProcTree} (hc : c ∈ cs) :
    Before (rootPid c) p (postorder t) := by
  induction hsub with
  | refl => exact child_before_parent_self hc
  | @step c2 p2 cs2 hmem hsub2 ih =>
    obtain ⟨pre, suf, heq⟩ := postorderF_split hmem
    rw [postorder_node, heq]
    have h := before_append _ _ ih pre (suf ++ [p2])
    have heq2 : pre ++ postorder c2 ++ (suf ++ [p2]) =
        (pre ++ postorder c2 ++ suf) ++ [p2] := by simp
    rw [heq2] at h
    exact h

/-! ## The kill loop -/

/-- When every `process.kill` either succeeds or fails with `ESRCH`,
`killPids` raises no error and delivers the signal to exactly the live PIDs,
in list order. -/
lemma killPids_ok (outcome : Nat → KillOutcome) (signal : String)
    (h : ∀ p, outcome p = .ok ∨ outcome p = .esrch) (pids : List Nat) :
    killPids outcome pids signal =
      .ok ((pids.filter (aliveB outcome)).map fun p => (p, signal)) := by
  induction pids with
  | nil => simp [killPids]
  | cons p rest ih =>
    rcases h p with hp | hp <;>
      simp [killPids, hp, ih, List.filter_cons, aliveB]

/-- **C1.** For every process tree rooted at a given PID (any tree shape),
`killProcessTree` on a POSIX platform (`killProcessTreeUnix`) collects all
discovered descendant PIDs into a flat list — the postorder listing — in which
every child appears before its parent, and sends the requested signal to the
PIDs in that order (skipping PIDs whose process vanished), so every descendant
is signaled before the root, which comes last. -/
theorem killProcessTreeUnix_children_before_root
    (raw : Nat → Except Unit String) (outcome : Nat → KillOutcome)
    (t : ProcTree) (signal : String) (fuel : Nat)
    (hagree : treeAgrees (getChildPids raw) t = true)
    (hnodup : (treePids t).Nodup)
    (hout : ∀ p, outcome p = KillOutcome.ok ∨ outcome p = KillOutcome.esrch)
    (hfuel : treeSize t + 1 ≤ fuel) :
    buildProcessTree (getChildPids raw) fuel (rootPid t) = some (postorder t) ∧
    (∀ x, x ∈ treePids t ↔ x ∈ postorder t) ∧
    (∀ (s : ProcTree) (p : Nat) (cs : List ProcTree),
        SubtreeOf (ProcTree.node p cs) t → s ∈ cs →
        Before (rootPid s) p (postorder t)) ∧
    (postorder t).getLast? = some (rootPid t) ∧
    killProcessTreeUnix raw outcome fuel (rootPid t) signal =
      some (Except.ok
        (((postorder t).filter (aliveB outcome)).map fun p => (p, signal))) ∧
    (∀ (s : ProcTree) (p : Nat) (cs : List ProcTree),
        SubtreeOf (ProcTree.node p cs) t → s ∈ cs →
        aliveB outcome (rootPid s) = true → aliveB outcome p = true →
        Before (rootPid s, signal) (p, signal)
          (((postorder t).filter (aliveB outcome)).map fun p => (p, signal))) := by
  have h1 := buildProcessTree_eq_postorder (getChildPids raw) t fuel hagree
    hnodup hfuel
  refine ⟨h1, fun x => mem_postorder_iff.symm,
    fun s p cs hsub hc => subtree_child_before hsub hc,
    postorder_getLast t, ?_, ?_⟩
  · simp only [killProcessTreeUnix, h1]
    rw [killPids_ok outcome signal hout]
  · intro s p cs hsub hc has hap
    exact before_map _ (before_filter _ (subtree_child_before hsub hc) has hap)

/-- Concrete child-query oracle for the `C1` witness: PID 1 has children 2
and 3, PID 2 has child 4, everything else has none. -/
def rawC1 : Nat → Except Unit String := fun p =>
  if p = 1 then Except.ok "2\n3"
  else if p = 2 then Except.ok " 4 " else Except.error ()

/-- The process tree described by `rawC1`. -/
def treeC1 : ProcTree :=
  ProcTree.node 1 [ProcTree.node 2 [ProcTree.node 4 []], ProcTree.node 3 []]

/-- Witness for `C1` at a concrete two-level tree: the signal trace is
leaf-to-root. -/
theorem killProcessTreeUnix_children_before_root_witness :
    killProcessTreeUnix rawC1 (fun _ => KillOutcome.ok) 10 1 "SIGTERM" =
      some (Except.ok
        [(4, "SIGTERM"), (2, "SIGTERM"), (3, "SIGTERM"), (1, "SIGTERM")]) := by
  have h := killProcessTreeUnix_children_before_root rawC1
    (fun _ => KillOutcome.ok) treeC1 "SIGTERM" 10
    (by decide) (by decide) (fun p => Or.inl rfl) (by decide)
  have hl : ((postorder treeC1).filter
        (aliveB fun _ => KillOutcome.ok)).map (fun p => (p, "SIGTERM")) =
      [(4, "SIGTERM"), (2, "SIGTERM"), (3, "SIGTERM"), (1, "SIGTERM")] := by
    decide
  have h5 := h.2.2.2.2.1
  rw [hl] at h5
  exact h5

/-- **C7.** `killProcessTree` is idempotent on dead trees: the child-discovery
query for a vanished PID yields an empty child list rather than failing
(`getChildPids` catches the failed `ps`/`pgrep` and returns `[]`), signalling
a PID that no longer exists (`ESRCH`) is silently skipped rather than an
error, and a call on an already-dead tree — such as the second call after a
kill completed — finishes as a silent no-op: no signal is delivered and no
error is raised.  Because the embedding is a pure function of the oracles,
the second call behaves identically to this one. -/
theorem killProcessTreeUnix_dead_tree_noop
    (raw : Nat → Except Unit String) (outcome : Nat → KillOutcome)
    (root : Nat) (signal : String) (fuel : Nat)
    (hraw : ∀ p, raw p = Except.error ())
    (hdead : ∀ p, outcome p = KillOutcome.esrch)
    (hfuel : 2 ≤ fuel) :
    getChildPids raw root = [] ∧
    killProcessTreeUnix raw outcome fuel root signal = some (Except.ok []) := by
  have hchild : getChildPids raw root = [] := by
    simp [getChildPids, hraw root]
  have hagree : treeAgrees (getChildPids raw) (ProcTree.node root []) = true := by
    rw [treeAgrees_node]
    exact ⟨by simp [hchild, forestRoots], by simp [forestAgrees]⟩
  have h1 := buildProcessTree_eq_postorder (getChildPids raw)
    (ProcTree.node root []) fuel hagree (by simp)
    (by simp only [treeSize_node, forestSize_nil]; omega)
  have hroot : rootPid (ProcTree.node root []) = root := rfl
  rw [hroot] at h1
  have hpost : postorder (ProcTree.node root []) = [root] := by simp
  rw [hpost] at h1
  refine ⟨hchild, ?_⟩
  simp only [killProcessTreeUnix, h1]
  simp [killPids, hdead root]

/-- Witness for `C7`: every child query fails (tree fully dead), every kill
reports `ESRCH`; the whole call is a silent no-op. -/
theorem killProcessTreeUnix_dead_tree_noop_witness :
    getChildPids (fun _ => Except.error ()) 5 = [] ∧
    killProcessTreeUnix (fun _ => Except.error ())
        (fun _ => KillOutcome.esrch) 2 5 "SIGTERM" = some (Except.ok []) :=
  killProcessTreeUnix_dead_tree_noop _ _ 5 "SIGTERM" 2
    (fun _ => rfl) (fun _ => rfl) (by omega)

/-! ## process-manager.ts — ProcessManager cleanup memoization

`cleanup()` runs on a single-threaded event loop and contains no suspension
point before `this.cleanupPromise` is assigned, so any interleaving of
concurrent or repeated calls is a sequence of atomic executions of its body.
The relevant ProcessManager fields are modelled as explicit state; a promise
is identified by the index of the `performCleanup()` run that created it
(calls that return the same identifier await the same in-flight operation and
therefore resolve exactly when that single pass completes). -/

structure CleanupState where
  /-- `this.cleanupPromise`: `none` is the initial `null`. -/
  cleanupPromise : Option Nat
  /-- `this.isShuttingDown`. -/
  isShuttingDown : Bool
  /-- How many times the `performCleanup()` body has been started. -/
  performCount : Nat
deriving Repr, DecidableEq

/-- The ProcessManager state at construction. -/
def initialCleanupState : CleanupState :=
  { cleanupPromise := none, isShuttingDown := false, performCount := 0 }

/-- One call of `ProcessManager.cleanup()` (process-manager.ts): if
`cleanupPromise` is set, return it unchanged; otherwise set
`isShuttingDown`, start `performCleanup()` (one fresh promise, identified by
the run index), store and return it. -/
def cleanupCall (s : CleanupState) : CleanupState × Nat :=
  match s.cleanupPromise with
  | some p => (s, p)
  | none =>
    ({ cleanupPromise := some s.performCount, isShuttingDown := true,
       performCount := s.performCount + 1 }, s.performCount)

/-- A sequence of `n` calls to `cleanup()`, returning the final state and the
promises handed back, in call order. -/
def cleanupCalls : Nat → CleanupState → CleanupState × List Nat
  | 0, s => (s, [])
  | n + 1, s =>
    let r1 := cleanupCall s
    let r2 := cleanupCalls n r1.1
    (r2.1, r1.2 :: r2.2)

lemma cleanupCall_started {s : CleanupState} {p : Nat}
    (h : s.cleanupPromise = some p) : cleanupCall s = (s, p) := by
  simp [cleanupCall, h]

lemma cleanupCalls_started {s : CleanupState} {p : Nat}
    (h : s.cleanupPromise = some p) (n : Nat) :
    cleanupCalls n s = (s, List.replicate n p) := by
  induction n with
  | zero => simp [cleanupCalls]
  | succ m ih => simp [cleanupCalls, cleanupCall_started h, ih, List.replicate]

/-- **C3.** For any number of repeated (or, on the single-threaded event
loop, concurrent) calls to `ProcessManager.cleanup()`, all calls receive one
and the same promise — the one whose resolution is the completion of the
single cleanup pass — and the `performCleanup` body is started exactly once.
Since every call returns that same in-flight promise, every call resolves
only after that single pass completes. -/
theorem processManager_cleanup_memoized (n : Nat) :
    (cleanupCalls (n + 1) initialCleanupState).1.performCount = 1 ∧
    (cleanupCalls (n + 1) initialCleanupState).1.cleanupPromise = some 0 ∧
    (cleanupCalls (n + 1) initialCleanupState).1.isShuttingDown = true ∧
    (cleanupCalls (n + 1) initialCleanupState).2 = List.replicate (n + 1) 0 := by
  have hfirst : cleanupCall initialCleanupState =
      ({ cleanupPromise := some 0, isShuttingDown := true, performCount := 1 },
        0) := by
    simp [cleanupCall, initialCleanupState]
  have hrest := cleanupCalls_started
    (s := { cleanupPromise := some 0, isShuttingDown := true, performCount := 1 })
    (p := 0) rfl n
  simp [cleanupCalls, hfirst, hrest, List.replicate]

/-! ## process-manager.ts — performCleanup hook pass (cleanup-hook variant)

`performCleanup` first iterates the registered cleanup hooks in registration
order, `await`-ing each to completion inside its own `try/catch` (a failure is
logged with `console.warn` and never rethrown), and only afterwards calls
`cleanupProcesses()`.  A hook is modelled by its outcome (`.ok` or a thrown
message); the run is modelled by the ordered trace of events it produces. -/

inductive CleanupEvent where
  /-- Hook number `i` (in registration order) was invoked and awaited. -/
  | hookInvoked (i : Nat)
  /-- The `catch` branch logged a failure of hook `i`. -/
  | hookWarned (i : Nat) (msg : String)
  /-- `cleanupProcesses()` — tracked-process termination — started. -/
  | procTermination
deriving Repr, DecidableEq

/-- The `for (const hook of this.cleanupHooks)` loop of `performCleanup`,
with `i` the index of the first remaining hook: each hook is invoked; a hook
that throws `m` additionally produces the logged warning, and the loop
continues with the next hook. -/
def runHooksFrom (i : Nat) : List (Except String Unit) → List CleanupEvent
  | [] => []
  | h :: rest =>
    (match h with
      | .ok _ => [CleanupEvent.hookInvoked i]
      | .error m =>
        [CleanupEvent.hookInvoked i,
         CleanupEvent.hookWarned i ("[ProcessManager] Cleanup hook failed: " ++ m)]) ++
      runHooksFrom (i + 1) rest

/-- `performCleanup` (process-manager.ts, cleanup-hook variant): run every
hook, then terminate tracked processes. -/
def performCleanup (hooks : List (Except String Unit)) : List CleanupEvent :=
  runHooksFrom 0 hooks ++ [CleanupEvent.procTermination]

lemma before_prepend {α : Type} {a b : α} {l : List α} (h : Before a b l)
    (pre : List α) : Before a b (pre ++ l) := by
  obtain ⟨l1, l2, l3, rfl⟩ := h
  exact ⟨pre ++ l1, l2, l3, by simp⟩

lemma before_append_right {α : Type} {a b : α} {l : List α} (h : Before a b l)
    (suf : List α) : Before a b (l ++ suf) := by
  obtain ⟨l1, l2, l3, rfl⟩ := h
  exact ⟨l1, l2, l3 ++ suf, by simp⟩

lemma runHooksFrom_invoked_mem :
    ∀ (hooks : List (Except String Unit)) (i j : Nat), j < hooks.length →
      CleanupEvent.hookInvoked (i + j) ∈ runHooksFrom i hooks := by
  intro hooks
  induction hooks with
  | nil => intro i j hj; simp at hj
  | cons h rest ih =>
    intro i j hj
    simp only [runHooksFrom, List.mem_append]
    cases j with
    | zero =>
      left
      cases h <;> simp
    | succ j2 =>
      right
      have := ih (i + 1) j2 (by simpa using hj)
      simpa [Nat.add_assoc, Nat.add_comm 1 j2] using this

lemma runHooksFrom_warned_mem :
    ∀ (hooks : List (Except String Unit)) (i j : Nat) (m : String),
      hooks.get? j = some (Except.error m) →
      CleanupEvent.hookWarned (i + j)
          ("[ProcessManager] Cleanup hook failed: " ++ m) ∈
        runHooksFrom i hooks := by
  intro hooks
  induction hooks with
  | nil => intro i j m hj; simp at hj
  | cons h rest ih =>
    intro i j m hj
    simp only [runHooksFrom, List.mem_append]
    cases j with
    | zero =>
      left
      simp only [List.get?_cons_zero, Option.some_inj] at hj
      subst hj
      simp
    | succ j2 =>
      right
      have := ih (i + 1) j2 m (by simpa using hj)
      simpa [Nat.add_assoc, Nat.add_comm 1 j2] using this

lemma runHooksFrom_no_termination :
    ∀ (hooks : List (Except String Unit)) (i : Nat),
      CleanupEvent.procTermination ∉ runHooksFrom i hooks := by
  intro hooks
  induction hooks with
  | nil => intro i; simp [runHooksFrom]
  | cons h rest ih =>
    intro i
    simp only [runHooksFrom, List.mem_append]
    push_neg
    refine ⟨?_, ih (i + 1)⟩
    cases h <;> simp

lemma runHooksFrom_invoked_before :
    ∀ (hooks : List (Except String Unit)) (i j k : Nat), j < k →
      k < hooks.length →
      Before (CleanupEvent.hookInvoked (i + j)) (CleanupEvent.hookInvoked (i + k))
        (runHooksFrom i hooks) := by
  intro hooks
  induction hooks with
  | nil => intro i j k _ hk; simp at hk
  | cons h rest ih =>
    intro i j k hjk hk
    cases j with
    | zero =>
      obtain ⟨k2, rfl⟩ : ∃ k2, k = k2 + 1 := ⟨k - 1, by omega⟩
      have hb : CleanupEvent.hookInvoked (i + (k2 + 1)) ∈ runHooksFrom (i + 1) rest := by
        have := runHooksFrom_invoked_mem rest (i + 1) k2 (by simpa using hk)
        simpa [Nat.add_assoc, Nat.add_comm 1 k2] using this
      obtain ⟨s, t, hst⟩ := List.append_of_mem hb
      cases h with
      | ok u =>
        refine ⟨[], s, t, ?_⟩
        simp [runHooksFrom, hst]
      | error m =>
        refine ⟨[], CleanupEvent.hookWarned i
          ("[ProcessManager] Cleanup hook failed: " ++ m) :: s, t, ?_⟩
        simp [runHooksFrom, hst]
    | succ j2 =>
      obtain ⟨k2, rfl⟩ : ∃ k2, k = k2 + 1 := ⟨k - 1, by omega⟩
      have hrec := ih (i + 1) j2 k2 (by omega) (by simpa using hk)
      have e1 : i + 1 + j2 = i + (j2 + 1) := by omega
      have e2 : i + 1 + k2 = i + (k2 + 1) := by omega
      rw [e1, e2] at hrec
      cases h with
      | ok u =>
        simpa [runHooksFrom] using
          before_prepend hrec [CleanupEvent.hookInvoked i]
      | error m =>
        simpa [runHooksFrom] using
          before_prepend hrec [CleanupEvent.hookInvoked i,
            CleanupEvent.hookWarned i
              ("[ProcessManager] Cleanup hook failed: " ++ m)]

/-- **C4.** During ProcessManager cleanup (the cleanup-hook variant of
`performCleanup`), every registered hook is run, hooks run sequentially in
registration order, a hook that throws is caught and logged (`hookWarned`)
rather than rethrown — so later hooks still run and termination still
happens — and every hook invocation occurs strictly before the
tracked-process termination phase, which occurs exactly once, at the end. -/
theorem performCleanup_hooks_before_termination
    (hooks : List (Except String Unit)) :
    (∀ i, i < hooks.length →
      CleanupEvent.hookInvoked i ∈ performCleanup hooks) ∧
    (∀ i j, i < j → j < hooks.length →
      Before (CleanupEvent.hookInvoked i) (CleanupEvent.hookInvoked j)
        (performCleanup hooks)) ∧
    (∀ i m, hooks.get? i = some (Except.error m) →
      CleanupEvent.hookWarned i ("[ProcessManager] Cleanup hook failed: " ++ m) ∈
        performCleanup hooks) ∧
    (∀ i, i < hooks.length →
      Before (CleanupEvent.hookInvoked i) CleanupEvent.procTermination
        (performCleanup hooks)) ∧
    (performCleanup hooks).getLast? = some CleanupEvent.procTermination ∧
    (performCleanup hooks).count CleanupEvent.procTermination = 1 := by
  refine ⟨?_, ?_, ?_, ?_, ?_, ?_⟩
  · intro i hi
    exact List.mem_append_left _
      (by simpa using runHooksFrom_invoked_mem hooks 0 i hi)
  · intro i j hij hj
    have := runHooksFrom_invoked_before hooks 0 i j hij hj
    simpa [performCleanup] using before_append_right (by simpa using this) _
  · intro i m hm
    exact List.mem_append_left _
      (by simpa using runHooksFrom_warned_mem hooks 0 i m hm)
  · intro i hi
    have hmem : CleanupEvent.hookInvoked i ∈ runHooksFrom 0 hooks := by
      simpa using runHooksFrom_invoked_mem hooks 0 i hi
    obtain ⟨s, t, hst⟩ := List.append_of_mem hmem
    exact ⟨s, t, [], by simp [performCleanup, hst]⟩
  · simp [performCleanup]
  · have h0 : (runHooksFrom 0 hooks).count CleanupEvent.procTermination = 0 :=
      List.count_eq_zero.mpr (runHooksFrom_no_termination hooks 0)
    simp [performCleanup, List.count_append, h0]

/-- Witness for `C4` with two hooks, the second of which throws: both hooks
are invoked, the failure is logged, and both invocations precede process
termination. -/
theorem performCleanup_hooks_before_termination_witness :
    CleanupEvent.hookInvoked 0 ∈
        performCleanup [Except.ok (), Except.error "boom"] ∧
    CleanupEvent.hookInvoked 1 ∈
        performCleanup [Except.ok (), Except.error "boom"] ∧
    CleanupEvent.hookWarned 1 ("[ProcessManager] Cleanup hook failed: " ++ "boom") ∈
        performCleanup [Except.ok (), Except.error "boom"] ∧
    Before (CleanupEvent.hookInvoked 1) CleanupEvent.procTermination
        (performCleanup [Except.ok (), Except.error "boom"]) := by
  have h := performCleanup_hooks_before_termination
    [Except.ok (), Except.error "boom"]
  exact ⟨h.1 0 (by decide), h.1 1 (by decide), h.2.2.1 1 "boom" rfl,
    h.2.2.2.1 1 (by decide)⟩

/-! ## process-manager.ts and part_034 — setupSignalHandlers

The repository carries two variants of `setupSignalHandlers`, both guarded
by the module-private `signalHandlersSetup` flag.  In the current
`process-manager.ts` variant each of `SIGINT`, `SIGTERM`, `SIGQUIT` gets a
handler whose whole body is `void processManager.cleanup()` — it contains
no `process.exit` call.  In the historical `part_034` variant the signal
handler body is `await processManager.cleanup(); process.exit(0)`, and the
function additionally installs `uncaughtException` and `unhandledRejection`
handlers that log, await cleanup, and then call `process.exit(1)`.  A
handler run is modelled as the manager state after it together with the
exit code the handler itself issues (`none` = no `process.exit` call). -/

structure SignalSetupState where
  /-- The module-private `signalHandlersSetup` flag. -/
  signalHandlersSetup : Bool
  /-- The event names a handler has been installed for, in installation
  order. -/
  installed : List String
deriving Repr, DecidableEq

/-- `setupSignalHandlers` (process-manager.ts, current variant): return
immediately when the guard flag is already set, otherwise set it and
install the three signal handlers. -/
def setupSignalHandlers (s : SignalSetupState) : SignalSetupState :=
  if s.signalHandlersSetup then s
  else
    { signalHandlersSetup := true,
      installed := s.installed ++ ["SIGINT", "SIGTERM", "SIGQUIT"] }

/-- `setupSignalHandlers` (part_034, historical variant, lines 319–354):
same guard; after the three signal handlers it additionally installs the
`uncaughtException` and `unhandledRejection` handlers, in that order. -/
def setupSignalHandlersWithExit (s : SignalSetupState) : SignalSetupState :=
  if s.signalHandlersSetup then s
  else
    { signalHandlersSetup := true,
      installed := s.installed ++ ["SIGINT", "SIGTERM", "SIGQUIT"] ++
        ["uncaughtException", "unhandledRejection"] }

/-- Signal handler body of the current process-manager.ts variant,
`void processManager.cleanup()`: trigger cleanup; no exit code is issued
because this handler body contains no `process.exit` call. -/
def onTerminationSignal (pm : CleanupState) : CleanupState × Option Nat :=
  ((cleanupCall pm).1, none)

/-- Signal handler body of the part_034 variant (lines 330–333):
`await processManager.cleanup(); process.exit(0)` — after cleanup resolves
the handler itself exits the process with code 0. -/
def onTerminationSignalExit (pm : CleanupState) : CleanupState × Option Nat :=
  ((cleanupCall pm).1, some 0)

/-- `uncaughtException` / `unhandledRejection` handler body of the part_034
variant: log the error, `await processManager.cleanup()`, then
`process.exit(1)`. -/
def onUncaughtError (pm : CleanupState) : CleanupState × Option Nat :=
  ((cleanupCall pm).1, some 1)

/-- **C5, counterexample.** The claim that the installed
SIGINT/SIGTERM/SIGQUIT handlers "do not themselves call process-exit" fails
on the cited part_034 variant: on a fresh manager its signal handler issues
`process.exit(0)` itself after triggering cleanup, its uncaught-error
handlers issue `process.exit(1)`, and that variant installs the two extra
handlers. -/
theorem part034_signal_handler_exits :
    (onTerminationSignalExit initialCleanupState).2 = some 0 ∧
    (onUncaughtError initialCleanupState).2 = some 1 ∧
    (setupSignalHandlersWithExit
        { signalHandlersSetup := false, installed := [] }).installed =
      ["SIGINT", "SIGTERM", "SIGQUIT",
        "uncaughtException", "unhandledRejection"] := by
  refine ⟨rfl, rfl, ?_⟩
  simp [setupSignalHandlersWithExit]

/-- **C5, amended.** Both `setupSignalHandlers` variants install their
handlers at most once, guarded by the private flag (installation is
idempotent, and with the flag set nothing more is installed); every handler
triggers `ProcessManager.cleanup()` (the two variants leave the manager in
the same state: the cleanup promise is set, and on a fresh manager one
cleanup pass is started and the shutdown flag raised).  The current
process-manager.ts handler issues no process-exit itself — choosing an exit
code after cleanup resolves is left to the top-level command handler —
whereas the historical part_034 signal handler itself calls
`process.exit(0)` after cleanup resolves, and the `uncaughtException` /
`unhandledRejection` handlers that variant additionally installs call
`process.exit(1)`. -/
theorem setupSignalHandlers_exit_behavior :
    (∀ s, setupSignalHandlers (setupSignalHandlers s) =
      setupSignalHandlers s) ∧
    (∀ s, setupSignalHandlersWithExit (setupSignalHandlersWithExit s) =
      setupSignalHandlersWithExit s) ∧
    (∀ s, s.signalHandlersSetup = false →
      (setupSignalHandlers s).installed =
        s.installed ++ ["SIGINT", "SIGTERM", "SIGQUIT"]) ∧
    (∀ s, s.signalHandlersSetup = false →
      (setupSignalHandlersWithExit s).installed =
        s.installed ++ ["SIGINT", "SIGTERM", "SIGQUIT"] ++
          ["uncaughtException", "unhandledRejection"]) ∧
    (∀ s, s.signalHandlersSetup = true →
      setupSignalHandlers s = s ∧ setupSignalHandlersWithExit s = s) ∧
    (∀ pm, (onTerminationSignal pm).1 = (onTerminationSignalExit pm).1 ∧
      ((onTerminationSignal pm).1).cleanupPromise.isSome = true) ∧
    (∀ pm, pm.cleanupPromise = none →
      (onTerminationSignal pm).1.performCount = pm.performCount + 1 ∧
      (onTerminationSignal pm).1.isShuttingDown = true) ∧
    (∀ pm, (onTerminationSignal pm).2 = none) ∧
    (∀ pm, (onTerminationSignalExit pm).2 = some 0 ∧
      (onUncaughtError pm).2 = some 1) := by
  refine ⟨?_, ?_, ?_, ?_, ?_, ?_, ?_, ?_, ?_⟩
  · intro s
    by_cases h : s.signalHandlersSetup <;> simp [setupSignalHandlers, h]
  · intro s
    by_cases h : s.signalHandlersSetup <;>
      simp [setupSignalHandlersWithExit, h]
  · intro s h
    simp [setupSignalHandlers, h]
  · intro s h
    simp [setupSignalHandlersWithExit, h]
  · intro s h
    exact ⟨by simp [setupSignalHandlers, h],
      by simp [setupSignalHandlersWithExit, h]⟩
  · intro pm
    refine ⟨rfl, ?_⟩
    cases h : pm.cleanupPromise <;>
      simp [onTerminationSignal, cleanupCall, h]
  · intro pm h
    simp [onTerminationSignal, cleanupCall, h]
  · intro pm
    simp [onTerminationSignal]
  · intro pm
    simp [onTerminationSignalExit, onUncaughtError]

/-- Witness for the amended `C5` on the fresh module state and a fresh
manager. -/
theorem setupSignalHandlers_exit_behavior_witness :
    (setupSignalHandlers
        (setupSignalHandlers
          { signalHandlersSetup := false, installed := [] }) =
      setupSignalHandlers
        { signalHandlersSetup := false, installed := [] }) ∧
    ((setupSignalHandlers
        { signalHandlersSetup := false, installed := [] }).installed =
      [] ++ ["SIGINT", "SIGTERM", "SIGQUIT"]) ∧
    ((setupSignalHandlersWithExit
        { signalHandlersSetup := false, installed := [] }).installed =
      [] ++ ["SIGINT", "SIGTERM", "SIGQUIT"] ++
        ["uncaughtException", "unhandledRejection"]) ∧
    ((onTerminationSignal initialCleanupState).2 = none) ∧
    ((onTerminationSignalExit initialCleanupState).2 = some 0) ∧
    ((onTerminationSignal initialCleanupState).1.performCount = 0 + 1) := by
  have h := setupSignalHandlers_exit_behavior
  refine ⟨h.1 _, h.2.2.1 _ rfl, h.2.2.2.1 _ rfl,
    h.2.2.2.2.2.2.2.1 initialCleanupState,
    (h.2.2.2.2.2.2.2.2 initialCleanupState).1, ?_⟩
  have h7 := (h.2.2.2.2.2.2.1 initialCleanupState rfl).1
  simpa [initialCleanupState] using h7

/-! ## lockfile.ts — cleanupLockfile retry with exponential backoff

One deletion attempt either succeeds, fails with `EBUSY` (the OS still holds
the file open), or fails otherwise; the per-attempt outcome is an oracle.
The embedding returns whether the file is still present, the ordered list of
backoff sleeps performed, and the warning logged (if any); every branch of
the source's `try/catch` returns normally, so the function is total for
every outcome oracle — it never throws.  The `ansis.cyan` color wrapper
around the path is omitted from the message text. -/

def MAX_LOCKFILE_CLEANUP_RETRIES : Nat := 10

def BASE_RETRY_DELAY_MS : Nat := 100

inductive DeleteOutcome where
  | ok
  | ebusy (msg : String)
  | fail (msg : String)
deriving Repr, DecidableEq

structure CleanupResult where
  /-- Whether the lockfile still exists after the call. -/
  filePresent : Bool
  /-- The backoff delays slept, in order (ms). -/
  sleeps : List Nat
  /-- The warning logged by the failure branch, if taken. -/
  warnMsg : Option String
deriving Repr, DecidableEq

/-- The `for (let attempt = 0; ...)` retry loop of `cleanupLockfile`
(lockfile.ts), with `remaining` the number of loop iterations still
permitted (`MAX_LOCKFILE_CLEANUP_RETRIES - attempt`): on each attempt, if
the file no longer exists return; otherwise delete it; on `EBUSY` before the
last attempt sleep `BASE_RETRY_DELAY_MS * 2 ^ attempt` and continue; on the
last attempt or any other failure, log the manual-deletion warning and
return. -/
def cleanupGo (lockFilePath : String) (del : Nat → DeleteOutcome) :
    Nat → Nat → Bool → List Nat → CleanupResult
  | 0, _, present, sleeps => ⟨present, sleeps, none⟩
  | r + 1, attempt, present, sleeps =>
    if present = false then ⟨false, sleeps, none⟩
    else
      match del attempt with
      | .ok => ⟨false, sleeps, none⟩
      | .ebusy m =>
        if attempt = MAX_LOCKFILE_CLEANUP_RETRIES - 1 then
          ⟨true, sleeps,
            some ("Failed to clean up lockfile: " ++ m ++
              "\nPlease manually delete: " ++ lockFilePath)⟩
        else
          cleanupGo lockFilePath del r (attempt + 1) present
            (sleeps ++ [BASE_RETRY_DELAY_MS * 2 ^ attempt])
      | .fail m =>
        ⟨true, sleeps,
          some ("Failed to clean up lockfile: " ++ m ++
            "\nPlease manually delete: " ++ lockFilePath)⟩

/-- `cleanupLockfile` (lockfile.ts): run the retry loop from attempt 0 with
all `MAX_LOCKFILE_CLEANUP_RETRIES` iterations permitted. -/
def cleanupLockfile (lockFilePath : String) (del : Nat → DeleteOutcome)
    (present : Bool) : CleanupResult :=
  cleanupGo lockFilePath del MAX_LOCKFILE_CLEANUP_RETRIES 0 present []

lemma cleanupGo_sleeps (path : String) (del : Nat → DeleteOutcome) :
    ∀ (r attempt : Nat) (present : Bool) (sleeps : List Nat),
      attempt + r = MAX_LOCKFILE_CLEANUP_RETRIES →
      1 ≤ r →
      ∃ k, attempt + k ≤ MAX_LOCKFILE_CLEANUP_RETRIES - 1 ∧
        (cleanupGo path del r attempt present sleeps).sleeps =
          sleeps ++ (List.range' attempt k).map
            (fun i => BASE_RETRY_DELAY_MS * 2 ^ i) := by
  have hM : MAX_LOCKFILE_CLEANUP_RETRIES = 10 := rfl
  intro r
  induction r with
  | zero => intro attempt present sleeps _ hr; omega
  | succ r2 ih =>
    intro attempt present sleeps hinv _
    by_cases hpres : present = false
    · subst hpres
      refine ⟨0, by omega, ?_⟩
      simp [cleanupGo]
    · rw [Bool.not_eq_false] at hpres
      subst hpres
      cases hdel : del attempt with
      | ok =>
        refine ⟨0, by omega, ?_⟩
        simp [cleanupGo, hdel]
      | fail m =>
        refine ⟨0, by omega, ?_⟩
        simp [cleanupGo, hdel]
      | ebusy m =>
        by_cases hlast : attempt = MAX_LOCKFILE_CLEANUP_RETRIES - 1
        · refine ⟨0, by omega, ?_⟩
          subst hlast
          simp [cleanupGo, hdel]
        · obtain ⟨k, hk, hs⟩ := ih (attempt + 1) true
            (sleeps ++ [BASE_RETRY_DELAY_MS * 2 ^ attempt])
            (by omega) (by omega)
          refine ⟨k + 1, by omega, ?_⟩
          have hstep : cleanupGo path del (r2 + 1) attempt true sleeps =
              cleanupGo path del r2 (attempt + 1) true
                (sleeps ++ [BASE_RETRY_DELAY_MS * 2 ^ attempt]) := by
            simp [cleanupGo, hdel, if_neg hlast]
          rw [hstep, hs, List.range'_succ attempt k 1]
          simp

lemma cleanupGo_all_busy (path : String) (del : Nat → DeleteOutcome) :
    ∀ (r attempt : Nat) (sleeps : List Nat),
      attempt + r = MAX_LOCKFILE_CLEANUP_RETRIES →
      1 ≤ r →
      (∀ i, i < MAX_LOCKFILE_CLEANUP_RETRIES →
        ∃ m, del i = DeleteOutcome.ebusy m) →
      ∃ m, del (MAX_LOCKFILE_CLEANUP_RETRIES - 1) = DeleteOutcome.ebusy m ∧
        (cleanupGo path del r attempt true sleeps).filePresent = true ∧
        (cleanupGo path del r attempt true sleeps).warnMsg =
          some ("Failed to clean up lockfile: " ++ m ++
            "\nPlease manually delete: " ++ path) := by
  have hM : MAX_LOCKFILE_CLEANUP_RETRIES = 10 := rfl
  intro r
  induction r with
  | zero => intro attempt sleeps _ hr _; omega
  | succ r2 ih =>
    intro attempt sleeps hinv _ hbusy
    obtain ⟨m, hm⟩ := hbusy attempt (by omega)
    by_cases hlast : attempt = MAX_LOCKFILE_CLEANUP_RETRIES - 1
    · subst hlast
      refine ⟨m, hm, ?_, ?_⟩ <;> simp [cleanupGo, hm]
    · obtain ⟨m2, hm2, hpres2, hwarn2⟩ := ih (attempt + 1)
        (sleeps ++ [BASE_RETRY_DELAY_MS * 2 ^ attempt])
        (by omega) (by omega) hbusy
      have hstep : cleanupGo path del (r2 + 1) attempt true sleeps =
          cleanupGo path del r2 (attempt + 1) true
            (sleeps ++ [BASE_RETRY_DELAY_MS * 2 ^ attempt]) := by
        simp [cleanupGo, hm, if_neg hlast]
      exact ⟨m2, hm2, by rw [hstep]; exact hpres2, by rw [hstep]; exact hwarn2⟩

/-- **C6.** For every sequence of deletion outcomes, `cleanupLockfile`
returns normally (it is a total function of the outcome oracle — every
`catch` branch returns, none rethrows), sleeping at most
`MAX_LOCKFILE_CLEANUP_RETRIES - 1` times; the delays slept are exactly
`BASE_RETRY_DELAY_MS * 2 ^ attempt` for consecutive attempts from 0 —
each delay double the previous one, hence strictly increasing; and when the
file exists and every permitted attempt fails with `EBUSY`, the file remains
and the logged warning instructs manual deletion of the given path. -/
theorem cleanupLockfile_bounded_backoff (path : String)
    (del : Nat → DeleteOutcome) (present : Bool) :
    (∃ k, k ≤ MAX_LOCKFILE_CLEANUP_RETRIES - 1 ∧
      (cleanupLockfile path del present).sleeps =
        (List.range k).map fun i => BASE_RETRY_DELAY_MS * 2 ^ i) ∧
    (cleanupLockfile path del present).sleeps.length ≤
      MAX_LOCKFILE_CLEANUP_RETRIES - 1 ∧
    List.Pairwise (· < ·) (cleanupLockfile path del present).sleeps ∧
    List.Chain' (fun a b => b = 2 * a)
      (cleanupLockfile path del present).sleeps ∧
    (present = true →
      (∀ i, i < MAX_LOCKFILE_CLEANUP_RETRIES →
        ∃ m, del i = DeleteOutcome.ebusy m) →
      ∃ m, del (MAX_LOCKFILE_CLEANUP_RETRIES - 1) = DeleteOutcome.ebusy m ∧
        (cleanupLockfile path del present).filePresent = true ∧
        (cleanupLockfile path del present).warnMsg =
          some ("Failed to clean up lockfile: " ++ m ++
            "\nPlease manually delete: " ++ path)) := by
  have hM : MAX_LOCKFILE_CLEANUP_RETRIES = 10 := rfl
  obtain ⟨k, hk, hs⟩ := cleanupGo_sleeps path del
    MAX_LOCKFILE_CLEANUP_RETRIES 0 present [] (by omega) (by omega)
  rw [← List.range_eq_range'] at hs
  have hs0 : (cleanupLockfile path del present).sleeps =
      (List.range k).map fun i => BASE_RETRY_DELAY_MS * 2 ^ i := by
    simpa [cleanupLockfile] using hs
  refine ⟨⟨k, by omega, hs0⟩, ?_, ?_, ?_, ?_⟩
  · rw [hs0]
    simp
    omega
  · rw [hs0]
    refine List.Pairwise.map _ ?_ (List.pairwise_lt_range k)
    intro a b hab
    have hpow : (2 : Nat) ^ a < 2 ^ b := Nat.pow_lt_pow_right (by omega) hab
    simp only [BASE_RETRY_DELAY_MS]
    omega
  · rw [hs0]
    rw [List.chain'_map]
    cases k with
    | zero => simp
    | succ k2 =>
      rw [List.chain'_range_succ]
      intro m _
      rw [pow_succ]
      ring
  · intro hpres hbusy
    subst hpres
    exact cleanupGo_all_busy path del MAX_LOCKFILE_CLEANUP_RETRIES 0 []
      (by omega) (by omega) hbusy

/-- Witness for `C6`: every attempt is `EBUSY`; the call returns normally
with the file still present and the manual-deletion warning logged. -/
theorem cleanupLockfile_bounded_backoff_witness :
    ∃ m, (fun _ : Nat => DeleteOutcome.ebusy "EBUSY")
        (MAX_LOCKFILE_CLEANUP_RETRIES - 1) = DeleteOutcome.ebusy m ∧
      (cleanupLockfile "game.rbxl.lock" (fun _ => DeleteOutcome.ebusy "EBUSY")
          true).filePresent = true ∧
      (cleanupLockfile "game.rbxl.lock" (fun _ => DeleteOutcome.ebusy "EBUSY")
          true).warnMsg =
        some ("Failed to clean up lockfile: " ++ m ++
          "\nPlease manually delete: " ++ "game.rbxl.lock") :=
  (cleanupLockfile_bounded_backoff "game.rbxl.lock"
    (fun _ => DeleteOutcome.ebusy "EBUSY") true).2.2.2.2 rfl
    (fun _ _ => ⟨"EBUSY", rfl⟩)

/-! ## rojo-lock-manager.ts — readRojoLock

A lock file is represented by its list of newline-separated lines
(`none` = the file does not exist).  `isProcessAlive` and `isPortAvailable`
are probe oracles; `del` drives deletion attempts of the cleanup retry loop. -/

structure RojoLockData where
  pid : Int
  port : Int
  startTime : Int
deriving Repr, DecidableEq

inductive LockEvent where
  /-- `isProcessAlive(pid)` was queried. -/
  | aliveCheck (pid : Int)
  /-- `isPortAvailable(port)` was queried. -/
  | portCheck (port : Int)
  /-- `cleanupLockfile(lockPath)` was invoked. -/
  | cleanup
deriving Repr, DecidableEq

structure ReadLockResult where
  /-- The parsed lock record, or `null`. -/
  data : Option RojoLockData
  /-- The lock file state after the call. -/
  fileAfter : Option (List String)
  /-- Ordered trace of probes and cleanups performed. -/
  events : List LockEvent
deriving Repr, DecidableEq

/-- `lines[i] ?? ""`. -/
def lineOr (lines : List String) (i : Nat) : String :=
  (lines.get? i).getD ""

/-- `readLockfileRaw` (lockfile.ts): `null` when the lock file does not
exist, otherwise the `split("\n")` lines of its contents — the identity on
the line-list representation. -/
def readLockfileRaw (file : Option (List String)) : Option (List String) :=
  file

/-- Effect of a `cleanupLockfile` call on the file: gone afterwards exactly
when the retry loop deleted it. -/
def fileAfterCleanup (path : String) (del : Nat → DeleteOutcome)
    (file : Option (List String)) : Option (List String) :=
  if (cleanupLockfile path del file.isSome).filePresent then file else none

/-- `readRojoLock` (rojo-lock-manager.ts): read the lock file; parse lines
0–2 (`lines[i] ?? ""`) as PID, port and start time with
`Number.parseInt(_, 10)`; if any is `NaN`, clean the file up and return
null; otherwise check `isProcessAlive(pid)` — if dead, warn, clean up and
return null; then guard against PID reuse with `isPortAvailable(port)` — if
the recorded port is free the lock is stale: warn, clean up and return null;
otherwise return the record `{pid, port, startTime}`. -/
def readRojoLock (lockPath : String) (alive : Int → Bool)
    (portFree : Int → Bool) (del : Nat → DeleteOutcome)
    (file : Option (List String)) : ReadLockResult :=
  match readLockfileRaw file with
  | none => ⟨none, file, []⟩
  | some lines =>
    match jsParseInt (lineOr lines 0), jsParseInt (lineOr lines 1),
        jsParseInt (lineOr lines 2) with
    | some pid, some port, some startTime =>
      if alive pid = false then
        ⟨none, fileAfterCleanup lockPath del file,
          [LockEvent.aliveCheck pid, LockEvent.cleanup]⟩
      else if portFree port then
        ⟨none, fileAfterCleanup lockPath del file,
          [LockEvent.aliveCheck pid, LockEvent.portCheck port,
            LockEvent.cleanup]⟩
      else
        ⟨some ⟨pid, port, startTime⟩, file,
          [LockEvent.aliveCheck pid, LockEvent.portCheck port]⟩
    | _, _, _ =>
      ⟨none, fileAfterCleanup lockPath del file, [LockEvent.cleanup]⟩

lemma fileAfterCleanup_del_ok (path : String) (del : Nat → DeleteOutcome)
    (file : Option (List String)) (hdel : del 0 = DeleteOutcome.ok) :
    fileAfterCleanup path del file = none := by
  cases file with
  | none => simp [fileAfterCleanup, cleanupLockfile,
      show MAX_LOCKFILE_CLEANUP_RETRIES = 9 + 1 from rfl, cleanupGo]
  | some lines => simp [fileAfterCleanup, cleanupLockfile,
      show MAX_LOCKFILE_CLEANUP_RETRIES = 9 + 1 from rfl, cleanupGo, hdel]

/-- **C2.** For every server-lock file whose three lines parse: if the
recorded PID is not alive or the recorded port is available, `readRojoLock`
returns null and (deletion succeeding) the lock file is deleted as a side
effect; it returns the parsed `{pid, port, startTime}` record — leaving the
file in place — exactly when both the liveness check and the port-binding
check pass. -/
theorem readRojoLock_stale_selfheal (lockPath : String)
    (alive portFree : Int → Bool) (del : Nat → DeleteOutcome)
    (lines : List String) (pid port startTime : Int)
    (hpid : jsParseInt (lineOr lines 0) = some pid)
    (hport : jsParseInt (lineOr lines 1) = some port)
    (hst : jsParseInt (lineOr lines 2) = some startTime)
    (hdel : del 0 = DeleteOutcome.ok) :
    ((alive pid = false ∨ portFree port = true) →
      (readRojoLock lockPath alive portFree del (some lines)).data = none ∧
      (readRojoLock lockPath alive portFree del (some lines)).fileAfter =
        none) ∧
    (∀ d, (readRojoLock lockPath alive portFree del (some lines)).data =
        some d ↔
      (alive pid = true ∧ portFree port = false ∧
        d = ⟨pid, port, startTime⟩)) ∧
    ((alive pid = true ∧ portFree port = false) →
      (readRojoLock lockPath alive portFree del (some lines)).fileAfter =
        some lines) := by
  have hclean := fileAfterCleanup_del_ok lockPath del (some lines) hdel
  cases halive : alive pid with
  | false =>
    refine ⟨fun _ => ?_, fun d => ?_, fun hcontra => ?_⟩
    · simp [readRojoLock, readLockfileRaw, hpid, hport, hst, halive, hclean]
    · simp [readRojoLock, readLockfileRaw, hpid, hport, hst, halive]
    · simp [halive] at hcontra
  | true =>
    cases hfree : portFree port with
    | true =>
      refine ⟨fun _ => ?_, fun d => ?_, fun hcontra => ?_⟩
      · simp [readRojoLock, readLockfileRaw, hpid, hport, hst, halive, hfree,
          hclean]
      · simp [readRojoLock, readLockfileRaw, hpid, hport, hst, halive, hfree]
      · simp [hfree] at hcontra
    | false =>
      refine ⟨fun hor => ?_, fun d => ?_, fun _ => ?_⟩
      · rcases hor with h | h <;> exact absurd h (by simp)
      · constructor
        · intro hd
          refine ⟨rfl, rfl, ?_⟩
          simpa [readRojoLock, readLockfileRaw, hpid, hport, hst, halive,
            hfree] using hd.symm
        · rintro ⟨-, -, rfl⟩
          simp [readRojoLock, readLockfileRaw, hpid, hport, hst, halive, hfree]
      · simp [readRojoLock, readLockfileRaw, hpid, hport, hst, halive, hfree]

/-- Witness for `C2`: a well-formed lock whose PID is dead is self-healed
(null, file deleted); the same lock with the PID alive and the port bound is
returned as a record with the file kept. -/
theorem readRojoLock_stale_selfheal_witness :
    ((readRojoLock "game.rbxl.rojo.lock" (fun _ => false) (fun _ => false)
        (fun _ => DeleteOutcome.ok) (some ["100", "34872", "123"])).data =
      none ∧
     (readRojoLock "game.rbxl.rojo.lock" (fun _ => false) (fun _ => false)
        (fun _ => DeleteOutcome.ok) (some ["100", "34872", "123"])).fileAfter =
      none) ∧
    ((readRojoLock "game.rbxl.rojo.lock" (fun _ => true) (fun _ => false)
        (fun _ => DeleteOutcome.ok) (some ["100", "34872", "123"])).data =
      some ⟨100, 34872, 123⟩) := by
  have h1 := readRojoLock_stale_selfheal "game.rbxl.rojo.lock"
    (fun _ => false) (fun _ => false) (fun _ => DeleteOutcome.ok)
    ["100", "34872", "123"] 100 34872 123
    (by decide) (by decide) (by decide) rfl
  have h2 := readRojoLock_stale_selfheal "game.rbxl.rojo.lock"
    (fun _ => true) (fun _ => false) (fun _ => DeleteOutcome.ok)
    ["100", "34872", "123"] 100 34872 123
    (by decide) (by decide) (by decide) rfl
  exact ⟨h1.1 (Or.inl rfl), (h2.2.1 ⟨100, 34872, 123⟩).mpr ⟨rfl, rfl, rfl⟩⟩

/-- **C9.** If any of the three lines of a server-lock file fails to parse
as an integer (`Number.isNaN`), `readRojoLock` deletes the malformed lock
file as a side effect and returns null, without performing the
process-liveness or port-binding checks: the event trace is exactly the
cleanup, with no `aliveCheck` or `portCheck`. -/
theorem readRojoLock_malformed_cleanup (lockPath : String)
    (alive portFree : Int → Bool) (del : Nat → DeleteOutcome)
    (lines : List String)
    (hbad : jsParseInt (lineOr lines 0) = none ∨
      jsParseInt (lineOr lines 1) = none ∨
      jsParseInt (lineOr lines 2) = none)
    (hdel : del 0 = DeleteOutcome.ok) :
    (readRojoLock lockPath alive portFree del (some lines)).data = none ∧
    (readRojoLock lockPath alive portFree del (some lines)).fileAfter =
      none ∧
    (readRojoLock lockPath alive portFree del (some lines)).events =
      [LockEvent.cleanup] := by
  have hclean := fileAfterCleanup_del_ok lockPath del (some lines) hdel
  rcases h0 : jsParseInt (lineOr lines 0) with _ | p0 <;>
    rcases h1 : jsParseInt (lineOr lines 1) with _ | p1 <;>
      rcases h2 : jsParseInt (lineOr lines 2) with _ | p2 <;>
        simp only [h0, h1, h2] at hbad <;>
          simp [readRojoLock, readLockfileRaw, h0, h1, h2, hclean] <;>
            simp at hbad

/-- Witness for `C9`: a one-line lock file whose PID line is not numeric is
deleted without probing liveness or the port. -/
theorem readRojoLock_malformed_cleanup_witness :
    (readRojoLock "game.rbxl.rojo.lock" (fun _ => true) (fun _ => false)
        (fun _ => DeleteOutcome.ok) (some ["garbage"])).data = none ∧
    (readRojoLock "game.rbxl.rojo.lock" (fun _ => true) (fun _ => false)
        (fun _ => DeleteOutcome.ok) (some ["garbage"])).fileAfter = none ∧
    (readRojoLock "game.rbxl.rojo.lock" (fun _ => true) (fun _ => false)
        (fun _ => DeleteOutcome.ok) (some ["garbage"])).events =
      [LockEvent.cleanup] :=
  readRojoLock_malformed_cleanup "game.rbxl.rojo.lock" _ _ _ ["garbage"]
    (Or.inl (by decide)) rfl

/-! ## Port probing — findAvailablePort

`isPortAvailable` (bind a TCP listener on loopback) is the oracle `avail`.
The embedding also returns the ordered list of ports probed. -/

def ROJO_DEFAULT_PORT : Nat := 34872

def ROJO_MAX_PORT_ATTEMPTS : Nat := 10

/-- The range-exhausted error message of `findAvailablePort`. -/
def portRangeError (startPort : Nat) : String :=
  "Could not find available port for Rojo (tried " ++ toString startPort ++
    "-" ++ toString (startPort + ROJO_MAX_PORT_ATTEMPTS - 1) ++ ")"

/-- The probe loop of `findAvailablePort`: try `startPort + index`; return it
if available, otherwise continue with the next consecutive port;
`remaining = ROJO_MAX_PORT_ATTEMPTS - index` iterations are left.  The second
component accumulates the ports probed, in order. -/
def findPortLoop (avail : Nat → Bool) (startPort : Nat) :
    Nat → Nat → List Nat → Except String Nat × List Nat
  | 0, _, probed => (.error (portRangeError startPort), probed)
  | r + 1, index, probed =>
    let port := startPort + index
    if avail port then (.ok port, probed ++ [port])
    else findPortLoop avail startPort r (index + 1) (probed ++ [port])

/-- `findAvailablePort` (port utilities): linear probe of
`ROJO_MAX_PORT_ATTEMPTS` consecutive ports from `startPort`. -/
def findAvailablePort (avail : Nat → Bool) (startPort : Nat) :
    Except String Nat × List Nat :=
  findPortLoop avail startPort ROJO_MAX_PORT_ATTEMPTS 0 []

lemma takeWhile_eq_self_of_all {α : Type} {p : α → Bool} :
    ∀ l : List α, (∀ x ∈ l, p x = true) → l.takeWhile p = l := by
  intro l h
  induction l with
  | nil => simp
  | cons a l ih =>
    rw [List.takeWhile_cons_of_pos (h a (by simp))]
    rw [ih (fun x hx => h x (by simp [hx]))]

lemma dropWhile_eq_nil_of_all {α : Type} {p : α → Bool} :
    ∀ l : List α, (∀ x ∈ l, p x = true) → l.dropWhile p = [] := by
  intro l h
  induction l with
  | nil => simp
  | cons a l ih =>
    rw [List.dropWhile_cons_of_pos (h a (by simp))]
    exact ih (fun x hx => h x (by simp [hx]))

lemma findPortLoop_spec (avail : Nat → Bool) (startPort : Nat) :
    ∀ (r index : Nat) (probed : List Nat),
      findPortLoop avail startPort r index probed =
        ((match (List.range' (startPort + index) r).find? avail with
          | some p => Except.ok p
          | none => Except.error (portRangeError startPort)),
         probed ++
           ((List.range' (startPort + index) r).takeWhile (fun p => !avail p) ++
             ((List.range' (startPort + index) r).dropWhile
               (fun p => !avail p)).take 1)) := by
  intro r
  induction r with
  | zero =>
    intro index probed
    simp [findPortLoop]
  | succ r2 ih =>
    intro index probed
    rw [List.range'_succ (startPort + index) r2 1]
    cases havail : avail (startPort + index) with
    | true =>
      rw [List.find?_cons_of_pos _ havail,
        List.takeWhile_cons_of_neg (by simp [havail]),
        List.dropWhile_cons_of_neg (by simp [havail])]
      simp [findPortLoop, havail]
    | false =>
      rw [List.find?_cons_of_neg _ (by simp [havail]),
        List.takeWhile_cons_of_pos (by simp [havail]),
        List.dropWhile_cons_of_pos (by simp [havail])]
      have harith : startPort + index + 1 = startPort + (index + 1) := by omega
      have hrec := ih (index + 1) (probed ++ [startPort + index])
      rw [harith]
      simp only [findPortLoop, havail, Bool.false_eq_true, if_false, hrec]
      simp

lemma find?_range'_first (avail : Nat → Bool) :
    ∀ (n s j : Nat), j < n → avail (s + j) = true →
      (∀ i, i < j → avail (s + i) = false) →
      (List.range' s n).find? avail = some (s + j) := by
  intro n
  induction n with
  | zero => intro s j hj; omega
  | succ n2 ih =>
    intro s j hj hja hprev
    rw [List.range'_succ s n2 1]
    cases j with
    | zero =>
      rw [List.find?_cons_of_pos _ (by simpa using hja)]
      simp
    | succ j2 =>
      have h0 : avail s = false := by simpa using hprev 0 (by omega)
      rw [List.find?_cons_of_neg _ (by simp [h0])]
      have := ih (s + 1) j2 (by omega)
        (by rw [show s + 1 + j2 = s + (j2 + 1) from by omega]; exact hja)
        (fun i hi => by
          rw [show s + 1 + i = s + (i + 1) from by omega]
          exact hprev (i + 1) (by omega))
      rw [this, show s + 1 + j2 = s + (j2 + 1) from by omega]

/-- **C8.** For every start port and availability predicate,
`findAvailablePort` probes exactly the consecutive ports `startPort`,
`startPort + 1`, …, in that deterministic order, stopping at the first
available port, which it returns; if none of the
`ROJO_MAX_PORT_ATTEMPTS` consecutive ports is available it has probed them
all and fails with the range-exhausted error naming the tried range. -/
theorem findAvailablePort_linear_probe (avail : Nat → Bool)
    (startPort : Nat) :
    (findAvailablePort avail startPort).1 =
      (match (List.range' startPort ROJO_MAX_PORT_ATTEMPTS).find? avail with
        | some p => Except.ok p
        | none => Except.error (portRangeError startPort)) ∧
    (findAvailablePort avail startPort).2 =
      (List.range' startPort ROJO_MAX_PORT_ATTEMPTS).takeWhile
          (fun p => !avail p) ++
        ((List.range' startPort ROJO_MAX_PORT_ATTEMPTS).dropWhile
          (fun p => !avail p)).take 1 ∧
    (∀ j, j < ROJO_MAX_PORT_ATTEMPTS → avail (startPort + j) = true →
      (∀ i, i < j → avail (startPort + i) = false) →
      (findAvailablePort avail startPort).1 = Except.ok (startPort + j)) ∧
    ((∀ i, i < ROJO_MAX_PORT_ATTEMPTS → avail (startPort + i) = false) →
      (findAvailablePort avail startPort).1 =
        Except.error (portRangeError startPort) ∧
      (findAvailablePort avail startPort).2 =
        List.range' startPort ROJO_MAX_PORT_ATTEMPTS) := by
  have hspec := findPortLoop_spec avail startPort ROJO_MAX_PORT_ATTEMPTS 0 []
  rw [Nat.add_zero] at hspec
  have h1 : (findAvailablePort avail startPort).1 =
      (match (List.range' startPort ROJO_MAX_PORT_ATTEMPTS).find? avail with
        | some p => Except.ok p
        | none => Except.error (portRangeError startPort)) := by
    rw [findAvailablePort, hspec]
  have h2 : (findAvailablePort avail startPort).2 =
      (List.range' startPort ROJO_MAX_PORT_ATTEMPTS).takeWhile
          (fun p => !avail p) ++
        ((List.range' startPort ROJO_MAX_PORT_ATTEMPTS).dropWhile
          (fun p => !avail p)).take 1 := by
    rw [findAvailablePort, hspec]
    simp
  refine ⟨h1, h2, ?_, ?_⟩
  · intro j hj hja hprev
    rw [h1, find?_range'_first avail ROJO_MAX_PORT_ATTEMPTS startPort j hj
      hja hprev]
  · intro hall
    have hmem : ∀ x ∈ List.range' startPort ROJO_MAX_PORT_ATTEMPTS,
        (!avail x) = true := by
      intro x hx
      rw [List.mem_range'_1] at hx
      have := hall (x - startPort) (by omega)
      rw [show startPort + (x - startPort) = x from by omega] at this
      simp [this]
    have hnone : (List.range' startPort ROJO_MAX_PORT_ATTEMPTS).find? avail =
        none := by
      rw [List.find?_eq_none]
      intro x hx
      have := hmem x hx
      simp at this
      simp [this]
    constructor
    · rw [h1, hnone]
    · rw [h2, takeWhile_eq_self_of_all _ hmem, dropWhile_eq_nil_of_all _ hmem]
      simp

/-- Witness for `C8`: with `34872` and `34873` unavailable and `34874` free,
the probe returns `34874`; with every port in the range unavailable it fails
with the message naming the range `34872-34881`. -/
theorem findAvailablePort_linear_probe_witness :
    (findAvailablePort (fun p => decide (p = 34874)) 34872).1 =
      Except.ok (34872 + 2) ∧
    (findAvailablePort (fun _ => false) 34872).1 =
      Except.error (portRangeError 34872) := by
  have hok := (findAvailablePort_linear_probe
    (fun p => decide (p = 34874)) 34872).2.2.1 2 (by decide) (by decide)
    (fun i hi => by
      interval_cases i <;> decide)
  have herr := ((findAvailablePort_linear_probe (fun _ => false) 34872).2.2.2
    (fun i _ => rfl)).1
  exact ⟨hok, herr⟩

/-! ## Shared multi-owner watch lockfile — addPidToLockfile

The shared lock file holds one PID per line; it is represented by its line
list (`none` = absent, the `ENOENT` case of `readLockfilePids`). -/

/-- `readLockfilePids`: read the shared lock file, split
`content.trim()` into lines, parse each trimmed line with
`Number.parseInt(_, 10)`, and keep the values that are not `NaN` and are
positive.  A missing file (`ENOENT`) reads as `[]`. -/
def readLockfilePids (file : Option (List String)) : List Int :=
  match file with
  | none => []
  | some lines =>
    (lines.map fun line => jsParseInt (jsTrim line)).filterMap fun o =>
      match o with
      | some p => if 0 < p then some p else none
      | none => none

/-- `addPidToLockfile`: read the existing PIDs; if `pid` is already listed,
return without writing; otherwise rewrite the file as
`allPids.join("\n") + "\n"` — one line per PID of `existingPids ++ [pid]`.
Returns the file afterwards and whether a write occurred. -/
def addPidToLockfile (pid : Int) (file : Option (List String)) :
    Option (List String) × Bool :=
  let existingPids := readLockfilePids file
  if pid ∈ existingPids then (file, false)
  else (some ((existingPids ++ [pid]).map fun p => toString p), true)

/-- **C10.** `addPidToLockfile` is idempotent: for every shared lock file
state, adding a PID that is already listed returns without rewriting the
file, so the file contents are unchanged; when the PID is new, the written
lines are exactly one line per PID of `existingPids ++ [pid]`, a list with
no duplicates whenever the existing listing had none — so no PID ever
appears on more than one line. -/
theorem addPidToLockfile_idempotent (pid : Int)
    (file : Option (List String)) :
    (pid ∈ readLockfilePids file →
      addPidToLockfile pid file = (file, false)) ∧
    (pid ∉ readLockfilePids file →
      addPidToLockfile pid file =
        (some ((readLockfilePids file ++ [pid]).map fun p => toString p),
          true) ∧
      ((readLockfilePids file).Nodup →
        (readLockfilePids file ++ [pid]).Nodup)) := by
  constructor
  · intro h
    simp [addPidToLockfile, h]
  · intro h
    refine ⟨by simp [addPidToLockfile, h], fun hnd => ?_⟩
    rw [List.nodup_append]
    exact ⟨hnd, List.nodup_singleton pid, by
      intro a ha hb
      simp only [List.mem_singleton] at hb
      subst hb
      exact h ha⟩

/-- Witness for `C10`: adding PID 100 to a lock file already listing it
leaves the file untouched and performs no write; adding it to a file that
does not list it writes the extended duplicate-free listing. -/
theorem addPidToLockfile_idempotent_witness :
    addPidToLockfile 100 (some ["42", "100"]) = (some ["42", "100"], false) ∧
    addPidToLockfile 100 (some ["42"]) =
      (some ((readLockfilePids (some ["42"]) ++ [100]).map fun p =>
        toString p), true) := by
  refine ⟨(addPidToLockfile_idempotent 100 (some ["42", "100"])).1 ?_,
    ((addPidToLockfile_idempotent 100 (some ["42"])).2 ?_).1⟩
  · decide
  · decide
